import Mathlib

/-!
Shallow embedding of the cryptographic-protocols layer (`relic_cp.h`) of the
RELIC library: RSA, ECDSA and the SOK identity-based key agreement.

The repository provides only the interface header `src/include/relic_cp.h`
(type definitions and prototypes); the `.c` implementations are not part of
the source tree.  Following the specification, the protocol operations are
therefore modelled from the algorithm descriptions of the spec (each such
definition is marked `Modelled from the spec:`).  Big integers (`bn_t`) are
embedded as `ℕ`; the external elliptic-curve and pairing substrates are
modelled by the cyclic group `ZMod q` of scalars (generator `1`, scalar
multiplication = ring multiplication, coordinate extraction = `val`, pairing
= ring multiplication, which is bilinear); randomness is an explicit stream
of sampled values; fallible operations return `Option`/`Except`.
-/

namespace Relic

/-- Modelled from the spec: the modular-inverse operation of the integer substrate
`(a, m) -> result | fails if gcd(a,m) ≠ 1` (the `.c` implementation is not in
the source tree).  It is modelled by exhaustive search for a witness below
`m`, which satisfies exactly the contract of the substrate. -/
def bn_mod_inv (a m : ℕ) : Option ℕ :=
  (List.range m).find? (fun x => a * x % m == 1)

/-- Modelled from the spec: the primality test of the integer substrate (the `.c`
implementation is not in the source tree), modelled by trial division. -/
def bn_is_prime (p : ℕ) : Bool :=
  decide (2 ≤ p) && (List.range p).all (fun k => decide (k ≤ 1) || decide (¬ k ∣ p))

/-- Folds a byte string into a natural number; used to model the external
hash primitives (which are deterministic functions of their input). -/
def bytesToNat (msg : List ℕ) : ℕ :=
  msg.foldl (fun a c => a * 256 + c) 0

/-- An RSA public key (`rsa_pub_t` in `relic_cp.h`): modulus `n = p*q` and
public exponent `e`. -/
structure rsa_pub_t where
  n : ℕ
  e : ℕ
deriving DecidableEq

/-- An RSA private key (`rsa_prv_t` in `relic_cp.h`): a single structure
holding the modulus, private exponent, both primes and the three CRT
accelerator fields, present in every value whichever generation path
produced it. -/
structure rsa_prv_t where
  n : ℕ
  d : ℕ
  p : ℕ
  q : ℕ
  dp : ℕ
  dq : ℕ
  qi : ℕ
deriving DecidableEq

/-- Modelled from the spec: validity of a sampled prime pair for an RSA key of
`bits` bits with public exponent `e` — two distinct primes of `bits/2` bits
each whose product has exactly `bits` bits, with `e` invertible modulo
`(p-1)*(q-1)`. -/
def rsa_pair_ok (bits e p q : ℕ) : Bool :=
  bn_is_prime p && bn_is_prime q && decide (p ≠ q)
  && decide (2 ^ (bits / 2 - 1) ≤ p) && decide (p < 2 ^ (bits / 2))
  && decide (2 ^ (bits / 2 - 1) ≤ q) && decide (q < 2 ^ (bits / 2))
  && decide (2 ^ (bits - 1) ≤ p * q) && decide (p * q < 2 ^ bits)
  && decide (Nat.gcd e ((p - 1) * (q - 1)) = 1)

/-- Modelled from the spec: `cp_rsa_gen_basic` (prototype at
`relic_cp.h:157`; the `.c` implementation is not in the source tree).
Samples candidate prime pairs from the randomness stream `rand` until a
valid pair is found, then builds `n`, `phi` and `d = e⁻¹ mod phi`; reports a
hard failure when the bounded stream is exhausted.  The CRT fields of the
returned private key are left unpopulated (zero). -/
def cp_rsa_gen_basic (rand : List (ℕ × ℕ)) (e bits : ℕ) :
    Except Unit (rsa_pub_t × rsa_prv_t) :=
  match rand.find? (fun pq => rsa_pair_ok bits e pq.1 pq.2) with
  | some (p, q) =>
    let n := p * q
    let phi := (p - 1) * (q - 1)
    let d := (bn_mod_inv e phi).getD 0
    .ok ({ n := n, e := e },
         { n := n, d := d, p := p, q := q, dp := 0, dq := 0, qi := 0 })
  | none => .error ()

/-- Modelled from the spec: `cp_rsa_gen_quick` (prototype at
`relic_cp.h:167`): as `cp_rsa_gen_basic`, additionally computing the CRT
accelerators `dp = d mod (p-1)`, `dq = d mod (q-1)` and `qi = q⁻¹ mod p`. -/
def cp_rsa_gen_quick (rand : List (ℕ × ℕ)) (e bits : ℕ) :
    Except Unit (rsa_pub_t × rsa_prv_t) :=
  match rand.find? (fun pq => rsa_pair_ok bits e pq.1 pq.2) with
  | some (p, q) =>
    let n := p * q
    let phi := (p - 1) * (q - 1)
    let d := (bn_mod_inv e phi).getD 0
    .ok ({ n := n, e := e },
         { n := n, d := d, p := p, q := q,
           dp := d % (p - 1), dq := d % (q - 1),
           qi := (bn_mod_inv q p).getD 0 })
  | none => .error ()

/-- Modelled from the spec: `cp_rsa_enc` (prototype at `relic_cp.h:179`).
The reversible padding transform is an external collaborator, passed as
`pad`; the padded message is interpreted as an integer which must be below
the modulus, and encryption is `c = m^e mod n`. -/
def cp_rsa_enc (pad : ℕ → ℕ) (msg : ℕ) (pub : rsa_pub_t) : Option ℕ :=
  if pad msg < pub.n then some (pad msg ^ pub.e % pub.n) else none

/-- Modelled from the spec: `cp_rsa_dec_basic` (prototype at
`relic_cp.h:192`): fails if `c ≥ n`, computes `m = c^d mod n` and strips
the padding with the external `unpad`, which signals malformed padding by
returning `none`. -/
def cp_rsa_dec_basic (unpad : ℕ → Option ℕ) (c : ℕ) (prv : rsa_prv_t) :
    Option ℕ :=
  if prv.n ≤ c then none else unpad (c ^ prv.d % prv.n)

/-- Modelled from the spec: the CRT exponentiation shared by
`cp_rsa_dec_quick` and `cp_rsa_sign_quick`: `m_p = c^dp mod p`,
`m_q = c^dq mod q`, recombined by the Garner formula using `qi`. -/
def rsa_crt_core (c : ℕ) (prv : rsa_prv_t) : ℕ :=
  let mp := c ^ prv.dp % prv.p
  let mq := c ^ prv.dq % prv.q
  let h := ((prv.qi : ℤ) * ((mp : ℤ) - (mq : ℤ))) % (prv.p : ℤ)
  mq + h.toNat * prv.q

/-- Modelled from the spec: `cp_rsa_dec_quick` (prototype at
`relic_cp.h:205`): CRT decryption with the same failure semantics as the
basic path. -/
def cp_rsa_dec_quick (unpad : ℕ → Option ℕ) (c : ℕ) (prv : rsa_prv_t) :
    Option ℕ :=
  if prv.n ≤ c then none else unpad (rsa_crt_core c prv)

/-- Modelled from the spec: `cp_rsa_sign_basic` (prototype at
`relic_cp.h:233`): pads the message into an integer below `n` and raises it
to the private exponent. -/
def cp_rsa_sign_basic (pad : ℕ → ℕ) (msg : ℕ) (prv : rsa_prv_t) : Option ℕ :=
  if pad msg < prv.n then some (pad msg ^ prv.d % prv.n) else none

/-- Modelled from the spec: `cp_rsa_sign_quick` (prototype at
`relic_cp.h:246`): as `cp_rsa_sign_basic` but via the CRT path. -/
def cp_rsa_sign_quick (pad : ℕ → ℕ) (msg : ℕ) (prv : rsa_prv_t) : Option ℕ :=
  if pad msg < prv.n then some (rsa_crt_core (pad msg) prv) else none

/-- Modelled from the spec: `cp_rsa_ver` (prototype at `relic_cp.h:259`):
computes `sig^e mod n`, strips the padding and compares with the message;
malformed padding is an expected outcome reported as `false`.  The `Except`
layer carries the substrate-failure channel, which verification never
uses. -/
def cp_rsa_ver (unpad : ℕ → Option ℕ) (sig msg : ℕ) (pub : rsa_pub_t) :
    Except Unit Bool :=
  match unpad (sig ^ pub.e % pub.n) with
  | none => .ok false
  | some m => .ok (decide (m = msg))

/-- Modelled from the spec: the external message-digest hash, a fixed
deterministic function of the message bytes. -/
def ecHash (msg : List ℕ) : ℕ := bytesToNat msg

/-- Modelled from the spec: the generator `G` of the external curve
substrate, whose group of points is modelled by the cyclic group `ZMod q`
of scalars modulo the curve order. -/
def ecG (q : ℕ) : ZMod q := 1

/-- Modelled from the spec: the scalar multiplication of the curve substrate
`(scalar, point) -> point` in the cyclic model. -/
def eb_mul (q : ℕ) (k : ℕ) (P : ZMod q) : ZMod q := (k : ZMod q) * P

/-- Modelled from the spec: the point-coordinate operation of the curve
substrate (coordinate extraction) in the cyclic model. -/
def eb_x (q : ℕ) (P : ZMod q) : ℕ := P.val

/-- Modelled from the spec: `cp_ecdsa_sign_basic` (prototype at
`relic_cp.h:284`) for one sampled nonce `k`: `r = (k·G).x mod order`,
`s = k⁻¹·(H(msg) + r·d) mod order`, with `none` (forcing a resample)
when `r` or `s` degenerates or the nonce is not invertible. -/
def cp_ecdsa_sign_basic (q : ℕ) (msg : List ℕ) (d k : ℕ) : Option (ℕ × ℕ) :=
  let r := eb_x q (eb_mul q k (ecG q))
  if r = 0 then none
  else
    match bn_mod_inv k q with
    | none => none
    | some w =>
      let s := w * (ecHash msg + r * d) % q
      if s = 0 then none else some (r, s)

/-- Modelled from the spec: `cp_ecdsa_sign_quick` (prototype at
`relic_cp.h:295`) is contractually identical to the basic variant, differing
only by unobservable precomputed fixed-base tables. -/
def cp_ecdsa_sign_quick (q : ℕ) (msg : List ℕ) (d k : ℕ) : Option (ℕ × ℕ) :=
  cp_ecdsa_sign_basic q msg d k

/-- Modelled from the spec: `cp_ecdsa_ver_basic` (prototype at
`relic_cp.h:306`): reject immediately if `r` or `s` is zero or at least the
order; compute `u1 = H(msg)·s⁻¹`, `u2 = r·s⁻¹`, `P = u1·G + u2·Q` and accept
iff `P.x mod order = r`.  A substrate failure (inverse of a non-invertible
element) is the error outcome. -/
def cp_ecdsa_ver_basic (q : ℕ) (r s : ℕ) (msg : List ℕ) (Q : ZMod q) :
    Except Unit Bool :=
  if r = 0 ∨ s = 0 ∨ q ≤ r ∨ q ≤ s then .ok false
  else
    match bn_mod_inv s q with
    | none => .error ()
    | some w =>
      let u1 := ecHash msg * w % q
      let u2 := r * w % q
      let P := eb_mul q u1 (ecG q) + eb_mul q u2 Q
      .ok (decide (eb_x q P % q = r))

/-- Modelled from the spec: `cp_ecdsa_ver_quick` (prototype at
`relic_cp.h:317`) exploits precomputed multiples of `Q` for the same
result as the basic variant. -/
def cp_ecdsa_ver_quick (q : ℕ) (r s : ℕ) (msg : List ℕ) (Q : ZMod q) :
    Except Unit Bool :=
  cp_ecdsa_ver_basic q r s msg Q

/-- Modelled from the spec: `cp_ecdsa_gen` (prototype at `relic_cp.h:273`):
samples `d` from the randomness stream until a scalar in `[1, order-1]` is
found and returns `(d, d·G)`; reports a hard failure when the bounded
stream is exhausted. -/
def cp_ecdsa_gen (q : ℕ) (rand : List ℕ) : Except Unit (ℕ × ZMod q) :=
  match rand.find? (fun k => decide (0 < k) && decide (k < q)) with
  | some d => .ok (d, eb_mul q d (ecG q))
  | none => .error ()

/-- Modelled from the spec: the nonce-resampling loop of ECDSA signing:
candidate nonces are drawn from the bounded randomness stream, each tried
through `cp_ecdsa_sign_basic`, and exhaustion is a hard failure. -/
def cp_ecdsa_sign_rand (q : ℕ) (msg : List ℕ) (d : ℕ) (rand : List ℕ) :
    Except Unit (ℕ × ℕ) :=
  match rand.findSome?
      (fun k => if 0 < k ∧ k < q then cp_ecdsa_sign_basic q msg d k else none) with
  | some rs => .ok rs
  | none => .error ()

/-- Modelled from the spec: `cp_sokaka_gen` (prototype at `relic_cp.h:325`):
samples the master secret from the randomness stream until a scalar in
`[1, order-1]` is found; exhaustion is a hard failure. -/
def cp_sokaka_gen (q : ℕ) (rand : List ℕ) : Except Unit ℕ :=
  match rand.find? (fun k => decide (0 < k) && decide (k < q)) with
  | some s => .ok s
  | none => .error ()

/-- Modelled from the spec: `cp_sokaka_gen_pub` (prototype at
`relic_cp.h:334`): the fixed deterministic hash-to-curve map applied to the
identity string, in the cyclic model of the curve substrate. -/
def cp_sokaka_gen_pub (q : ℕ) (ident : List ℕ) : ZMod q :=
  (bytesToNat ident : ZMod q)

/-- Modelled from the spec: `cp_sokaka_gen_pub` with the ambient randomness
stream threaded through explicitly, to express that the operation neither
consumes nor depends on it. -/
def cp_sokaka_gen_pub_st (q : ℕ) (rng : List ℕ) (ident : List ℕ) :
    ZMod q × List ℕ :=
  (cp_sokaka_gen_pub q ident, rng)

/-- Modelled from the spec: `cp_sokaka_gen_prv` (prototype at
`relic_cp.h:343`): `S_id = s·H(id)`. -/
def cp_sokaka_gen_prv (q : ℕ) (ident : List ℕ) (master : ℕ) : ZMod q :=
  eb_mul q master (cp_sokaka_gen_pub q ident)

/-- Modelled from the spec: the external pairing substrate
`pairing(point, point) -> target-group element` in the cyclic model, where
the pairing is ring multiplication of scalars — a bilinear map, which is
the only property the protocol uses. -/
def pb_map (q : ℕ) (P S : ZMod q) : ZMod q := P * S

/-- Modelled from the spec: `cp_sokaka_key` (prototype at `relic_cp.h:352`):
the shared key `K = e(Q_other, S_self)`. -/
def cp_sokaka_key (q : ℕ) (P S : ZMod q) : ZMod q := pb_map q P S

/-! ### Correctness of the modelled integer substrate -/

theorem bn_is_prime_iff (p : ℕ) : bn_is_prime p = true ↔ p.Prime := by
  rw [Nat.prime_def_lt]
  simp only [bn_is_prime, Bool.and_eq_true, decide_eq_true_eq, List.all_eq_true,
    List.mem_range, Bool.or_eq_true]
  constructor
  · rintro ⟨h2, h⟩
    refine ⟨h2, fun m hm hdvd => ?_⟩
    rcases h m hm with h1 | h1
    · have hm0 : m ≠ 0 := by
        intro h0
        subst h0
        exact absurd (Nat.eq_zero_of_zero_dvd hdvd) (by omega)
      omega
    · exact absurd hdvd h1
  · rintro ⟨h2, h⟩
    refine ⟨h2, fun m hm => ?_⟩
    by_cases hdvd : m ∣ p
    · exact Or.inl (by rw [h m hm hdvd])
    · exact Or.inr hdvd

theorem bn_mod_inv_spec {a m x : ℕ} (h : bn_mod_inv a m = some x) :
    a * x % m = 1 ∧ x < m := by
  have h1 := List.find?_some h
  have h2 := List.mem_of_find?_eq_some h
  simp only [beq_iff_eq] at h1
  exact ⟨h1, List.mem_range.mp h2⟩

theorem bn_mod_inv_exists {a m : ℕ} (hm : 1 < m) (h : Nat.gcd a m = 1) :
    ∃ x, bn_mod_inv a m = some x := by
  rw [← Option.isSome_iff_exists]
  rw [bn_mod_inv, List.find?_isSome]
  obtain ⟨x, hx⟩ := Nat.exists_mul_emod_eq_one_of_coprime h hm
  refine ⟨x % m, List.mem_range.mpr (Nat.mod_lt _ (by omega)), ?_⟩
  have : a * (x % m) % m = a * x % m := by
    conv_lhs => rw [Nat.mul_mod, Nat.mod_mod_of_dvd x dvd_rfl, ← Nat.mul_mod]
  simp only [beq_iff_eq, this, hx]

/-! ### Number-theoretic core lemmas -/

/-- Exponents that agree modulo `p - 1` give the same power modulo a
prime `p` (both exponents positive, so that the case `p ∣ a` also goes
through). -/
theorem prime_pow_congr (p a x y : ℕ) (hp : p.Prime) (hx : 0 < x) (hy : 0 < y)
    (hxy : x % (p - 1) = y % (p - 1)) : a ^ x ≡ a ^ y [MOD p] := by
  haveI : Fact p.Prime := ⟨hp⟩
  rw [← ZMod.natCast_eq_natCast_iff]
  push_cast
  by_cases hb : (a : ZMod p) = 0
  · rw [hb, zero_pow hx.ne', zero_pow hy.ne']
  · have hfermat : (a : ZMod p) ^ (p - 1) = 1 := ZMod.pow_card_sub_one_eq_one hb
    have key : ∀ z : ℕ, (a : ZMod p) ^ z = (a : ZMod p) ^ (z % (p - 1)) := by
      intro z
      conv_lhs => rw [← Nat.div_add_mod z (p - 1)]
      rw [pow_add, pow_mul, hfermat, one_pow, one_mul]
    rw [key x, key y, hxy]

/-- The RSA round-trip core: raising to `e` then to `d` modulo `n = p*q` is
the identity on residues below `n` when `e*d ≡ 1 (mod (p-1)(q-1))`. -/
theorem rsa_pow_round (p q e d m : ℕ) (hp : p.Prime) (hq : q.Prime)
    (hpq : p ≠ q) (hed : e * d % ((p - 1) * (q - 1)) = 1) (hm : m < p * q) :
    (m ^ e % (p * q)) ^ d % (p * q) = m := by
  have hp2 := hp.two_le
  have hq2 := hq.two_le
  have hphi1 : 1 ≤ (p - 1) * (q - 1) :=
    Nat.one_le_iff_ne_zero.mpr (Nat.mul_ne_zero (by omega) (by omega))
  have hphi : 1 < (p - 1) * (q - 1) := by
    rcases Nat.lt_or_ge 1 ((p - 1) * (q - 1)) with h | h
    · exact h
    · have : (p - 1) * (q - 1) = 1 := le_antisymm h hphi1
      rw [this, Nat.mod_one] at hed
      omega
  have hmod : e * d ≡ 1 [MOD (p - 1) * (q - 1)] := by
    unfold Nat.ModEq
    rw [hed, Nat.mod_eq_of_lt hphi]
  have hed_pos : 0 < e * d := by
    rcases Nat.eq_zero_or_pos (e * d) with h | h
    · rw [h, Nat.zero_mod] at hed; omega
    · exact h
  have hcp : m ^ (e * d) ≡ m [MOD p] := by
    have h1 : e * d ≡ 1 [MOD p - 1] :=
      Nat.ModEq.of_dvd (dvd_mul_right (p - 1) (q - 1)) hmod
    simpa using prime_pow_congr p m (e * d) 1 hp hed_pos one_pos h1
  have hcq : m ^ (e * d) ≡ m [MOD q] := by
    have h1 : e * d ≡ 1 [MOD q - 1] :=
      Nat.ModEq.of_dvd (dvd_mul_left (q - 1) (p - 1)) hmod
    simpa using prime_pow_congr q m (e * d) 1 hq hed_pos one_pos h1
  have hco : Nat.Coprime p q := (Nat.coprime_primes hp hq).mpr hpq
  have hn : m ^ (e * d) ≡ m [MOD p * q] :=
    (Nat.modEq_and_modEq_iff_modEq_mul hco).mp ⟨hcp, hcq⟩
  calc (m ^ e % (p * q)) ^ d % (p * q)
      = (m ^ e) ^ d % (p * q) := (Nat.pow_mod (m ^ e) d (p * q)).symm
    _ = m ^ (e * d) % (p * q) := by rw [← pow_mul]
    _ = m % (p * q) := hn
    _ = m := Nat.mod_eq_of_lt hm

/-- The Garner CRT recombination: given the residues of `x` modulo two
coprime moduli and the inverse of `q` modulo `p`, the recombination formula
recovers `x mod (p*q)`. -/
theorem garner_recombine (p q qi x mp mq : ℕ) (hp : 1 < p) (hq : 0 < q)
    (hco : Nat.Coprime p q) (hqi : q * qi % p = 1)
    (hmp : mp = x % p) (hmq : mq = x % q) :
    mq + (((qi : ℤ) * ((mp : ℤ) - (mq : ℤ))) % (p : ℤ)).toNat * q
      = x % (p * q) := by
  have hp0 : (p : ℤ) ≠ 0 := by exact_mod_cast (by omega : p ≠ 0)
  have hppos : (0 : ℤ) < p := by exact_mod_cast (by omega : 0 < p)
  set hI : ℤ := ((qi : ℤ) * ((mp : ℤ) - (mq : ℤ))) % (p : ℤ) with hI_def
  have h0 : 0 ≤ hI := Int.emod_nonneg _ hp0
  have hlt : hI < (p : ℤ) := Int.emod_lt_of_pos _ hppos
  have htn : (hI.toNat : ℤ) = hI := Int.toNat_of_nonneg h0
  set res : ℕ := mq + hI.toNat * q with hres_def
  have hres_lt : res < p * q := by
    have h1 : mq < q := hmq ▸ Nat.mod_lt _ hq
    have h2 : hI.toNat ≤ p - 1 := by omega
    have h3 : hI.toNat * q ≤ (p - 1) * q := Nat.mul_le_mul_right q h2
    have h4 : res < q + (p - 1) * q := by omega
    have h5 : q + (p - 1) * q = p * q := by
      have : 1 + (p - 1) = p := by omega
      calc q + (p - 1) * q = (1 + (p - 1)) * q := by ring
        _ = p * q := by rw [this]
    omega
  have hresI : (res : ℤ) = (mq : ℤ) + hI * q := by
    push_cast [hres_def, htn]
    ring
  -- congruence modulo q
  have hcq : (res : ℤ) ≡ (x : ℤ) [ZMOD (q : ℤ)] := by
    have h1 : (mq : ℤ) = (x : ℤ) % q := by
      rw [hmq]; exact_mod_cast Int.natCast_mod x q
    calc (res : ℤ) = (x : ℤ) % q + hI * q := by rw [hresI, h1]
      _ ≡ (x : ℤ) % q [ZMOD (q : ℤ)] := Int.add_mul_emod_self
      _ ≡ (x : ℤ) [ZMOD (q : ℤ)] := Int.emod_emod_of_dvd _ dvd_rfl
  -- congruence modulo p
  have hcp : (res : ℤ) ≡ (x : ℤ) [ZMOD (p : ℤ)] := by
    have hmpI : (mp : ℤ) = (x : ℤ) % p := by
      rw [hmp]; exact_mod_cast Int.natCast_mod x p
    have h1 : hI ≡ (qi : ℤ) * ((mp : ℤ) - (mq : ℤ)) [ZMOD (p : ℤ)] :=
      Int.emod_emod_of_dvd _ dvd_rfl
    have h2 : (res : ℤ) ≡ (mq : ℤ) + ((qi : ℤ) * ((mp : ℤ) - mq)) * q
        [ZMOD (p : ℤ)] := by
      rw [hresI]
      exact (Int.ModEq.refl _).add (h1.mul_right _)
    have h3 : ((q : ℤ) * qi) ≡ 1 [ZMOD (p : ℤ)] := by
      have hc : ((q * qi % p : ℕ) : ℤ) = ((q : ℤ) * qi) % p := by
        push_cast [Int.natCast_mod]; ring_nf
      have h1p : (1 : ℤ) % p = 1 := Int.emod_eq_of_lt (by omega) (by omega)
      unfold Int.ModEq
      rw [h1p, ← hc, hqi]
      norm_num
    have h4 : (mq : ℤ) + ((qi : ℤ) * ((mp : ℤ) - mq)) * q
        ≡ (mq : ℤ) + 1 * ((mp : ℤ) - mq) [ZMOD (p : ℤ)] := by
      have := h3.mul_right ((mp : ℤ) - mq)
      have heq : (mq : ℤ) + ((qi : ℤ) * ((mp : ℤ) - mq)) * q
          = (mq : ℤ) + ((q : ℤ) * qi) * ((mp : ℤ) - mq) := by ring
      rw [heq]
      exact (Int.ModEq.refl _).add this
    have h5 : (mq : ℤ) + 1 * ((mp : ℤ) - mq) = (mp : ℤ) := by ring
    calc (res : ℤ) ≡ (mq : ℤ) + ((qi : ℤ) * ((mp : ℤ) - mq)) * q
          [ZMOD (p : ℤ)] := h2
      _ ≡ (mq : ℤ) + 1 * ((mp : ℤ) - mq) [ZMOD (p : ℤ)] := h4
      _ = (mp : ℤ) := h5
      _ = (x : ℤ) % p := hmpI
      _ ≡ (x : ℤ) [ZMOD (p : ℤ)] := Int.emod_emod_of_dvd _ dvd_rfl
  -- combine and conclude
  have hcoI : (p : ℤ).natAbs.Coprime (q : ℤ).natAbs := by
    simpa using hco
  have hpq : (res : ℤ) ≡ (x : ℤ) [ZMOD (p : ℤ) * q] :=
    (Int.modEq_and_modEq_iff_modEq_mul hcoI).mp ⟨hcp, hcq⟩
  have hfinal : (res : ℤ) = (x : ℤ) % ((p : ℤ) * q) := by
    have h1 : (res : ℤ) % ((p : ℤ) * q) = (res : ℤ) :=
      Int.emod_eq_of_lt (by positivity) (by exact_mod_cast hres_lt)
    rw [← h1]
    exact hpq
  have : (res : ℤ) = ((x % (p * q) : ℕ) : ℤ) := by
    rw [hfinal]
    push_cast [Int.natCast_mod]
    ring_nf
  exact_mod_cast this

/-! ### Properties of the modelled key generation -/

/-- Under the bit-length constraints of key generation a sampled prime pair
can never contain 2: a `bits/2`-bit window containing 2 forces `bits ≤ 5`,
and then the product of the pair cannot reach `bits` bits. -/
theorem rsa_size_rules_out_two {bits p q : ℕ}
    (hple : 2 ^ (bits / 2 - 1) ≤ p) (hplt : p < 2 ^ (bits / 2))
    (hqlt : q < 2 ^ (bits / 2)) (hnle : 2 ^ (bits - 1) ≤ p * q)
    (hp2 : p = 2) : False := by
  subst hp2
  have hb1 : 2 ≤ bits / 2 := by
    by_contra hb
    push_neg at hb
    have : (2 : ℕ) ^ (bits / 2) ≤ 2 ^ 1 := Nat.pow_le_pow_right (by omega) (by omega)
    omega
  have hb2 : bits / 2 - 1 ≤ 1 := by
    by_contra hb
    push_neg at hb
    have : (2 : ℕ) ^ 2 ≤ 2 ^ (bits / 2 - 1) :=
      Nat.pow_le_pow_right (by omega) (by omega)
    omega
  have hbits : bits / 2 = 2 := by omega
  have hq4 : q < 4 := by
    rw [hbits] at hqlt
    omega
  have h8 : (8 : ℕ) ≤ 2 ^ (bits - 1) := by
    have hble : bits = 4 ∨ bits = 5 := by omega
    rcases hble with h | h <;> subst h <;> norm_num
  have := le_trans h8 hnle
  omega

theorem rsa_pair_ok_elim {bits e p q : ℕ} (h : rsa_pair_ok bits e p q = true) :
    p.Prime ∧ q.Prime ∧ p ≠ q ∧ 2 < p ∧ 2 < q ∧
      Nat.gcd e ((p - 1) * (q - 1)) = 1 := by
  simp only [rsa_pair_ok, Bool.and_eq_true, decide_eq_true_eq] at h
  obtain ⟨⟨⟨⟨⟨⟨⟨⟨⟨hp, hq⟩, hne⟩, hple⟩, hplt⟩, hqle⟩, hqlt⟩, hnle⟩, hnlt⟩, hgcd⟩ := h
  rw [bn_is_prime_iff] at hp hq
  have hp2 : 2 < p := by
    have := hp.two_le
    rcases Nat.lt_or_ge 2 p with h | h
    · exact h
    · exact absurd (rsa_size_rules_out_two hple hplt hqlt hnle (by omega)) not_false
  have hq2 : 2 < q := by
    have := hq.two_le
    rcases Nat.lt_or_ge 2 q with h | h
    · exact h
    · have hnle' : 2 ^ (bits - 1) ≤ q * p := by rw [Nat.mul_comm]; exact hnle
      exact absurd (rsa_size_rules_out_two hqle hqlt hplt hnle' (by omega)) not_false
  exact ⟨hp, hq, hne, hp2, hq2, hgcd⟩

theorem rsa_gen_d_spec {e p q : ℕ} (hp2 : 2 < p) (hq2 : 2 < q)
    (hgcd : Nat.gcd e ((p - 1) * (q - 1)) = 1) :
    e * (bn_mod_inv e ((p - 1) * (q - 1))).getD 0 % ((p - 1) * (q - 1)) = 1 := by
  have hphi : 1 < (p - 1) * (q - 1) := by
    have : 2 * 2 ≤ (p - 1) * (q - 1) := Nat.mul_le_mul (by omega) (by omega)
    omega
  obtain ⟨x, hx⟩ := bn_mod_inv_exists hphi hgcd
  rw [hx, Option.getD_some]
  exact (bn_mod_inv_spec hx).1

theorem cp_rsa_gen_basic_spec {rand : List (ℕ × ℕ)} {e bits : ℕ}
    {pub : rsa_pub_t} {prv : rsa_prv_t}
    (h : cp_rsa_gen_basic rand e bits = .ok (pub, prv)) :
    ∃ p q, rsa_pair_ok bits e p q = true ∧
      pub = ⟨p * q, e⟩ ∧
      prv = ⟨p * q, (bn_mod_inv e ((p - 1) * (q - 1))).getD 0, p, q, 0, 0, 0⟩ := by
  unfold cp_rsa_gen_basic at h
  split at h
  next p q hfind =>
    simp only [Except.ok.injEq, Prod.mk.injEq] at h
    have hok : rsa_pair_ok bits e p q = true := by simpa using List.find?_some hfind
    exact ⟨p, q, hok, h.1.symm, h.2.symm⟩
  next => cases h

theorem cp_rsa_gen_quick_spec {rand : List (ℕ × ℕ)} {e bits : ℕ}
    {pub : rsa_pub_t} {prv : rsa_prv_t}
    (h : cp_rsa_gen_quick rand e bits = .ok (pub, prv)) :
    ∃ p q, rsa_pair_ok bits e p q = true ∧
      pub = ⟨p * q, e⟩ ∧
      prv = ⟨p * q, (bn_mod_inv e ((p - 1) * (q - 1))).getD 0, p, q,
        (bn_mod_inv e ((p - 1) * (q - 1))).getD 0 % (p - 1),
        (bn_mod_inv e ((p - 1) * (q - 1))).getD 0 % (q - 1),
        (bn_mod_inv q p).getD 0⟩ := by
  unfold cp_rsa_gen_quick at h
  split at h
  next p q hfind =>
    simp only [Except.ok.injEq, Prod.mk.injEq] at h
    have hok : rsa_pair_ok bits e p q = true := by simpa using List.find?_some hfind
    exact ⟨p, q, hok, h.1.symm, h.2.symm⟩
  next => cases h

theorem cp_rsa_gen_basic_valid {rand : List (ℕ × ℕ)} {e bits : ℕ}
    {pub : rsa_pub_t} {prv : rsa_prv_t}
    (h : cp_rsa_gen_basic rand e bits = .ok (pub, prv)) :
    prv.p.Prime ∧ prv.q.Prime ∧ prv.p ≠ prv.q ∧
      prv.n = prv.p * prv.q ∧ pub.n = prv.n ∧ pub.e = e ∧
      e * prv.d % ((prv.p - 1) * (prv.q - 1)) = 1 := by
  obtain ⟨p, q, hok, hpub, hprv⟩ := cp_rsa_gen_basic_spec h
  obtain ⟨hp, hq, hne, hp2, hq2, hgcd⟩ := rsa_pair_ok_elim hok
  subst hpub hprv
  exact ⟨hp, hq, hne, rfl, rfl, rfl, rsa_gen_d_spec hp2 hq2 hgcd⟩

theorem cp_rsa_gen_quick_valid {rand : List (ℕ × ℕ)} {e bits : ℕ}
    {pub : rsa_pub_t} {prv : rsa_prv_t}
    (h : cp_rsa_gen_quick rand e bits = .ok (pub, prv)) :
    prv.p.Prime ∧ prv.q.Prime ∧ prv.p ≠ prv.q ∧ 2 < prv.p ∧ 2 < prv.q ∧
      prv.n = prv.p * prv.q ∧ pub.n = prv.n ∧ pub.e = e ∧
      e * prv.d % ((prv.p - 1) * (prv.q - 1)) = 1 ∧
      prv.dp = prv.d % (prv.p - 1) ∧ prv.dq = prv.d % (prv.q - 1) ∧
      prv.q * prv.qi % prv.p = 1 ∧ prv.qi < prv.p := by
  obtain ⟨p, q, hok, hpub, hprv⟩ := cp_rsa_gen_quick_spec h
  obtain ⟨hp, hq, hne, hp2, hq2, hgcd⟩ := rsa_pair_ok_elim hok
  subst hpub hprv
  have hqi : q * (bn_mod_inv q p).getD 0 % p = 1 ∧ (bn_mod_inv q p).getD 0 < p := by
    have hco : Nat.gcd q p = 1 := (Nat.coprime_primes hq hp).mpr (Ne.symm hne)
    obtain ⟨x, hx⟩ := bn_mod_inv_exists (by omega : 1 < p) hco
    rw [hx, Option.getD_some]
    exact bn_mod_inv_spec hx
  exact ⟨hp, hq, hne, hp2, hq2, rfl, rfl, rfl, rsa_gen_d_spec hp2 hq2 hgcd,
    rfl, rfl, hqi.1, hqi.2⟩

/-- For a valid CRT-capable key the CRT exponentiation agrees with plain
modular exponentiation on every input. -/
theorem rsa_crt_core_eq {e : ℕ} {prv : rsa_prv_t}
    (hp : prv.p.Prime) (hq : prv.q.Prime) (hne : prv.p ≠ prv.q)
    (hp2 : 2 < prv.p) (hq2 : 2 < prv.q) (hn : prv.n = prv.p * prv.q)
    (hed : e * prv.d % ((prv.p - 1) * (prv.q - 1)) = 1)
    (hdp : prv.dp = prv.d % (prv.p - 1)) (hdq : prv.dq = prv.d % (prv.q - 1))
    (hqi : prv.q * prv.qi % prv.p = 1) (c : ℕ) :
    rsa_crt_core c prv = c ^ prv.d % prv.n := by
  obtain ⟨n, d, p, q, dp, dq, qi⟩ := prv
  dsimp only at hp hq hne hp2 hq2 hn hed hdp hdq hqi ⊢
  subst hn hdp hdq
  have hphi : 1 < (p - 1) * (q - 1) := by
    have : 2 * 2 ≤ (p - 1) * (q - 1) := Nat.mul_le_mul (by omega) (by omega)
    omega
  have hd_pos : 0 < d := by
    rcases Nat.eq_zero_or_pos d with h0 | h0
    · rw [h0, Nat.mul_zero, Nat.zero_mod] at hed; omega
    · exact h0
  have hmodphi : e * d ≡ 1 [MOD (p - 1) * (q - 1)] := by
    unfold Nat.ModEq
    rw [hed, Nat.mod_eq_of_lt hphi]
  have hdp_pos : 0 < d % (p - 1) := by
    rcases Nat.eq_zero_or_pos (d % (p - 1)) with h0 | h0
    · exfalso
      obtain ⟨t, ht⟩ := Nat.dvd_of_mod_eq_zero h0
      have h1 : e * d ≡ 1 [MOD p - 1] :=
        Nat.ModEq.of_dvd (dvd_mul_right (p - 1) (q - 1)) hmodphi
      have h2 : e * d % (p - 1) = 0 := by
        rw [ht, Nat.mul_comm (p - 1) t, ← Nat.mul_assoc, Nat.mul_mod_left]
      have h3 : (1 : ℕ) % (p - 1) = 1 := Nat.mod_eq_of_lt (by omega)
      rw [Nat.ModEq, h2, h3] at h1
      omega
    · exact h0
  have hdq_pos : 0 < d % (q - 1) := by
    rcases Nat.eq_zero_or_pos (d % (q - 1)) with h0 | h0
    · exfalso
      obtain ⟨t, ht⟩ := Nat.dvd_of_mod_eq_zero h0
      have h1 : e * d ≡ 1 [MOD q - 1] :=
        Nat.ModEq.of_dvd (dvd_mul_left (q - 1) (p - 1)) hmodphi
      have h2 : e * d % (q - 1) = 0 := by
        rw [ht, Nat.mul_comm (q - 1) t, ← Nat.mul_assoc, Nat.mul_mod_left]
      have h3 : (1 : ℕ) % (q - 1) = 1 := Nat.mod_eq_of_lt (by omega)
      rw [Nat.ModEq, h2, h3] at h1
      omega
    · exact h0
  have hmp : c ^ (d % (p - 1)) % p = c ^ d % p :=
    prime_pow_congr p c (d % (p - 1)) d hp hdp_pos hd_pos
      (Nat.mod_mod_of_dvd d dvd_rfl)
  have hmq : c ^ (d % (q - 1)) % q = c ^ d % q :=
    prime_pow_congr q c (d % (q - 1)) d hq hdq_pos hd_pos
      (Nat.mod_mod_of_dvd d dvd_rfl)
  have hgar := garner_recombine p q qi (c ^ d)
    (c ^ (d % (p - 1)) % p) (c ^ (d % (q - 1)) % q)
    (by omega) (by omega) ((Nat.coprime_primes hp hq).mpr hne) hqi
    (by rw [hmp]) (by rw [hmq])
  simpa only [rsa_crt_core] using hgar

/-! ### The claims -/

/-- C1: for every valid RSA key pair produced by key generation and every
message whose padded encoding fits below the modulus, decrypting the
encryption of the message with the matching private key returns the
original message. -/
theorem claim_C1 (rand : List (ℕ × ℕ)) (e bits msg : ℕ)
    (pad : ℕ → ℕ) (unpad : ℕ → Option ℕ) (hpu : ∀ x, unpad (pad x) = some x)
    (pub : rsa_pub_t) (prv : rsa_prv_t)
    (hgen : cp_rsa_gen_basic rand e bits = .ok (pub, prv))
    (hfit : pad msg < pub.n) :
    (cp_rsa_enc pad msg pub).bind (fun c => cp_rsa_dec_basic unpad c prv)
      = some msg := by
  obtain ⟨hp, hq, hne, hn, hpubn, hpube, hed⟩ := cp_rsa_gen_basic_valid hgen
  rw [cp_rsa_enc, if_pos hfit]
  simp only [Option.some_bind]
  rw [cp_rsa_dec_basic]
  have hnpos : 0 < pub.n := by omega
  have hclt : pad msg ^ pub.e % pub.n < prv.n := by
    rw [← hpubn]; exact Nat.mod_lt _ hnpos
  rw [if_neg (by omega)]
  have hfit' : pad msg < prv.p * prv.q := by rw [← hn, ← hpubn]; exact hfit
  have hround : (pad msg ^ e % (prv.p * prv.q)) ^ prv.d % (prv.p * prv.q)
      = pad msg :=
    rsa_pow_round prv.p prv.q e prv.d (pad msg) hp hq hne hed hfit'
  rw [hpube, hpubn, hn, hround, hpu]

/-- Witness for C1: the 6-bit key generated from the prime pair (5,7) with
public exponent 5 round-trips the message 2 through the identity padding. -/
theorem claim_C1_witness :
    (cp_rsa_enc (fun x => x) 2 ⟨35, 5⟩).bind
      (fun c => cp_rsa_dec_basic some c ⟨35, 5, 5, 7, 0, 0, 0⟩) = some 2 :=
  claim_C1 [(5, 7)] 5 6 2 (fun x => x) some (fun _ => rfl)
    ⟨35, 5⟩ ⟨35, 5, 5, 7, 0, 0, 0⟩ rfl (by decide)

/-- C4: for every key produced by the CRT generation path, the quick (CRT)
decryption and signing variants return exactly the same result as their
basic counterparts on every input. -/
theorem claim_C4 (rand : List (ℕ × ℕ)) (e bits : ℕ)
    (pub : rsa_pub_t) (prv : rsa_prv_t)
    (hgen : cp_rsa_gen_quick rand e bits = .ok (pub, prv)) :
    (∀ unpad c, cp_rsa_dec_quick unpad c prv = cp_rsa_dec_basic unpad c prv) ∧
    (∀ pad m, cp_rsa_sign_quick pad m prv = cp_rsa_sign_basic pad m prv) := by
  obtain ⟨hp, hq, hne, hp2, hq2, hn, hpubn, hpube, hed, hdp, hdq, hqi, hqilt⟩ :=
    cp_rsa_gen_quick_valid hgen
  have hcore : ∀ c, rsa_crt_core c prv = c ^ prv.d % prv.n :=
    fun c => rsa_crt_core_eq hp hq hne hp2 hq2 hn hed hdp hdq hqi c
  constructor
  · intro unpad c
    rw [cp_rsa_dec_quick, cp_rsa_dec_basic, hcore]
  · intro pad m
    rw [cp_rsa_sign_quick, cp_rsa_sign_basic, hcore]

/-- Witness for C4: on the CRT key generated from the prime pair (5,7) the
quick variants agree with the basic ones at ciphertext 2 and message 3. -/
theorem claim_C4_witness :
    cp_rsa_dec_quick some 2 ⟨35, 5, 5, 7, 1, 5, 3⟩
        = cp_rsa_dec_basic some 2 ⟨35, 5, 5, 7, 1, 5, 3⟩ ∧
      cp_rsa_sign_quick (fun x => x) 3 ⟨35, 5, 5, 7, 1, 5, 3⟩
        = cp_rsa_sign_basic (fun x => x) 3 ⟨35, 5, 5, 7, 1, 5, 3⟩ :=
  ⟨(claim_C4 [(5, 7)] 5 6 ⟨35, 5⟩ ⟨35, 5, 5, 7, 1, 5, 3⟩ rfl).1 some 2,
   (claim_C4 [(5, 7)] 5 6 ⟨35, 5⟩ ⟨35, 5, 5, 7, 1, 5, 3⟩ rfl).2 (fun x => x) 3⟩

/-- C8: every private key produced by the CRT generation path satisfies
`dp = d mod (p-1)`, `dq = d mod (q-1)` and `qi = q⁻¹ mod p` (expressed as
`qi*q ≡ 1 (mod p)` with `qi < p`, which determines `qi` uniquely). -/
theorem claim_C8 (rand : List (ℕ × ℕ)) (e bits : ℕ)
    (pub : rsa_pub_t) (prv : rsa_prv_t)
    (hgen : cp_rsa_gen_quick rand e bits = .ok (pub, prv)) :
    prv.dp = prv.d % (prv.p - 1) ∧ prv.dq = prv.d % (prv.q - 1) ∧
      prv.qi * prv.q % prv.p = 1 ∧ prv.qi < prv.p := by
  obtain ⟨_, _, _, _, _, _, _, _, _, hdp, hdq, hqi, hqilt⟩ :=
    cp_rsa_gen_quick_valid hgen
  exact ⟨hdp, hdq, by rw [Nat.mul_comm]; exact hqi, hqilt⟩

/-- Witness for C8: the CRT key generated from the prime pair (5,7) with
`d = 5` has `dp = 1 = 5 mod 4`, `dq = 5 = 5 mod 6` and `qi = 3` with
`3 * 7 ≡ 1 (mod 5)`. -/
theorem claim_C8_witness :
    (1 : ℕ) = 5 % 4 ∧ (5 : ℕ) = 5 % 6 ∧ 3 * 7 % 5 = 1 ∧ (3 : ℕ) < 5 :=
  claim_C8 [(5, 7)] 5 6 ⟨35, 5⟩ ⟨35, 5, 5, 7, 1, 5, 3⟩ rfl

/-- C10: both RSA generation paths return private keys of the single
structure type `rsa_prv_t`, whose CRT fields exist (unpopulated) in a
basic-generated key, and nothing prevents passing such a key to the CRT
operations: the call type-checks and silently computes a wrong result
rather than being rejected. -/
theorem claim_C10 : ∃ (pub : rsa_pub_t) (prv : rsa_prv_t) (c : ℕ),
    cp_rsa_gen_basic [(5, 7)] 5 6 = .ok (pub, prv) ∧
    cp_rsa_dec_quick some c prv ≠ cp_rsa_dec_basic some c prv := by
  refine ⟨⟨35, 5⟩, ⟨35, 5, 5, 7, 0, 0, 0⟩, 2, rfl, ?_⟩
  decide

/-- C2: every signature produced by `cp_ecdsa_sign_basic` (for any nonce the
signer draws) on a key pair with `Q = d·G` is accepted by
`cp_ecdsa_ver_basic`, which returns true. -/
theorem claim_C2 (q : ℕ) (hq : Nat.Prime q) (msg : List ℕ) (d k r s : ℕ)
    (hsig : cp_ecdsa_sign_basic q msg d k = some (r, s)) :
    cp_ecdsa_ver_basic q r s msg (eb_mul q d (ecG q)) = .ok true := by
  haveI : Fact q.Prime := ⟨hq⟩
  haveI : NeZero q := ⟨hq.pos.ne'⟩
  simp only [cp_ecdsa_sign_basic] at hsig
  split at hsig
  · cases hsig
  rename_i hr0
  split at hsig
  · cases hsig
  rename_i w hkinv
  split at hsig
  · cases hsig
  rename_i hs0
  simp only [Option.some.injEq, Prod.mk.injEq] at hsig
  obtain ⟨hr, hs⟩ := hsig
  rw [hr] at hs hr0 hs0
  have hkw : k * w % q = 1 := (bn_mod_inv_spec hkinv).1
  have hrv : (k : ZMod q).val = r := by
    simpa [eb_x, eb_mul, ecG, mul_one] using hr
  have hrlt : r < q := hrv ▸ ZMod.val_lt _
  have hslt : s < q := by rw [← hs]; exact Nat.mod_lt _ hq.pos
  have hsne : s ≠ 0 := by rw [← hs]; exact hs0
  have hcond : ¬ (r = 0 ∨ s = 0 ∨ q ≤ r ∨ q ≤ s) := by
    push_neg
    exact ⟨hr0, hsne, by omega, by omega⟩
  have hco : Nat.gcd s q = 1 := by
    have hdvd : ¬ q ∣ s := Nat.not_dvd_of_pos_of_lt (by omega) (by omega)
    exact ((Nat.Prime.coprime_iff_not_dvd hq).mpr hdvd).symm
  obtain ⟨w2, hw2⟩ := bn_mod_inv_exists hq.one_lt hco
  have hw2s : s * w2 % q = 1 := (bn_mod_inv_spec hw2).1
  -- lift the three modular equations to ZMod q
  have c1 : (k : ZMod q) * (w : ZMod q) = 1 := by
    have := congrArg (fun t : ℕ => (t : ZMod q)) hkw
    simpa [ZMod.natCast_mod] using this
  have c2 : (w : ZMod q) * ((ecHash msg : ZMod q) + (r : ZMod q) * (d : ZMod q))
      = (s : ZMod q) := by
    have := congrArg (fun t : ℕ => (t : ZMod q)) hs
    simpa [ZMod.natCast_mod] using this
  have c3 : (s : ZMod q) * (w2 : ZMod q) = 1 := by
    have := congrArg (fun t : ℕ => (t : ZMod q)) hw2s
    simpa [ZMod.natCast_mod] using this
  simp only [cp_ecdsa_ver_basic, if_neg hcond, hw2]
  have hPk : ((ecHash msg * w2 % q : ℕ) : ZMod q)
      + ((r * w2 % q : ℕ) : ZMod q) * (d : ZMod q) = (k : ZMod q) := by
    rw [ZMod.natCast_mod, ZMod.natCast_mod]
    push_cast
    linear_combination
      (- (((ecHash msg : ZMod q) + (r : ZMod q) * (d : ZMod q))
          * (w2 : ZMod q))) * c1
      + ((k : ZMod q) * (w2 : ZMod q)) * c2
      + (k : ZMod q) * c3
  simp only [eb_mul, eb_x, ecG, mul_one]
  rw [hPk, Nat.mod_eq_of_lt (ZMod.val_lt _), hrv]
  simp

/-- Witness for C2: over the order-5 model, signing the message `[1]` with
key `d = 1` and nonce `k = 1` yields the signature `(1, 2)`, which the
verifier accepts. -/
theorem claim_C2_witness :
    cp_ecdsa_ver_basic 5 1 2 [1] (eb_mul 5 1 (ecG 5)) = .ok true :=
  claim_C2 5 (by norm_num) [1] 1 1 1 2 (by decide)

/-- C5: a signature whose component `r` or `s` is zero or at least the
group order is rejected by both verification variants, which return
false. -/
theorem claim_C5 (q r s : ℕ) (msg : List ℕ) (Q : ZMod q)
    (h : r = 0 ∨ s = 0 ∨ q ≤ r ∨ q ≤ s) :
    cp_ecdsa_ver_basic q r s msg Q = .ok false ∧
      cp_ecdsa_ver_quick q r s msg Q = .ok false := by
  have h1 : cp_ecdsa_ver_basic q r s msg Q = .ok false := by
    simp only [cp_ecdsa_ver_basic]
    rw [if_pos h]
  exact ⟨h1, h1⟩

/-- Witness for C5: the signature `(0, 1)` is rejected by both variants
over the order-5 model. -/
theorem claim_C5_witness :
    cp_ecdsa_ver_basic 5 0 1 [] (0 : ZMod 5) = .ok false ∧
      cp_ecdsa_ver_quick 5 0 1 [] (0 : ZMod 5) = .ok false :=
  claim_C5 5 0 1 [] 0 (Or.inl rfl)

/-- C6: on every input the verification operations (RSA verify and both
ECDSA verify variants) return a boolean outcome — an invalid signature is
the boolean `false`, never the substrate-failure channel. -/
theorem claim_C6 (q : ℕ) (hq : Nat.Prime q) (unpad : ℕ → Option ℕ)
    (sig m r s : ℕ) (msg : List ℕ) (pub : rsa_pub_t) (Q : ZMod q) :
    (∃ b, cp_rsa_ver unpad sig m pub = .ok b) ∧
      (∃ b, cp_ecdsa_ver_basic q r s msg Q = .ok b) ∧
      (∃ b, cp_ecdsa_ver_quick q r s msg Q = .ok b) := by
  have hrsa : ∃ b, cp_rsa_ver unpad sig m pub = .ok b := by
    cases hu : unpad (sig ^ pub.e % pub.n) with
    | none => exact ⟨false, by simp only [cp_rsa_ver, hu]⟩
    | some x => exact ⟨decide (x = m), by simp only [cp_rsa_ver, hu]⟩
  have hecdsa : ∃ b, cp_ecdsa_ver_basic q r s msg Q = .ok b := by
    by_cases hg : r = 0 ∨ s = 0 ∨ q ≤ r ∨ q ≤ s
    · exact ⟨false, by simp only [cp_ecdsa_ver_basic]; rw [if_pos hg]⟩
    · have hg' := hg
      push_neg at hg'
      obtain ⟨hr0, hs0, hrlt, hslt⟩ := hg'
      have hco : Nat.gcd s q = 1 := by
        have hdvd : ¬ q ∣ s := Nat.not_dvd_of_pos_of_lt (by omega) (by omega)
        exact ((Nat.Prime.coprime_iff_not_dvd hq).mpr hdvd).symm
      obtain ⟨w, hw⟩ := bn_mod_inv_exists hq.one_lt hco
      have hval : cp_ecdsa_ver_basic q r s msg Q
          = .ok (decide (eb_x q (eb_mul q (ecHash msg * w % q) (ecG q)
              + eb_mul q (r * w % q) Q) % q = r)) := by
        simp only [cp_ecdsa_ver_basic, if_neg hg, hw]
      exact ⟨_, hval⟩
  exact ⟨hrsa, hecdsa, hecdsa⟩

/-- Witness for C6: concrete verification calls over the order-5 model and
the 6-bit RSA public key all return a boolean outcome. -/
theorem claim_C6_witness :
    (∃ b, cp_rsa_ver some 1 1 ⟨35, 5⟩ = .ok b) ∧
      (∃ b, cp_ecdsa_ver_basic 5 1 2 [1] (0 : ZMod 5) = .ok b) ∧
      (∃ b, cp_ecdsa_ver_quick 5 1 2 [1] (0 : ZMod 5) = .ok b) :=
  claim_C6 5 (by norm_num) some 1 1 1 2 [1] ⟨35, 5⟩ 0

/-- C3: for distinct identities A and B under the same master secret, the
shared key that A computes from the public point of B and the private key
of A equals the one that B computes symmetrically. -/
theorem claim_C3 (q s : ℕ) (idA idB : List ℕ) (hne : idA ≠ idB) :
    cp_sokaka_key q (cp_sokaka_gen_pub q idB) (cp_sokaka_gen_prv q idA s)
      = cp_sokaka_key q (cp_sokaka_gen_pub q idA) (cp_sokaka_gen_prv q idB s) := by
  simp only [cp_sokaka_key, pb_map, cp_sokaka_gen_prv, eb_mul, cp_sokaka_gen_pub]
  ring

/-- Witness for C3: the identities `[1]` and `[2]` agree on the shared key
under master secret 3 in the order-7 model. -/
theorem claim_C3_witness :
    cp_sokaka_key 7 (cp_sokaka_gen_pub 7 [2]) (cp_sokaka_gen_prv 7 [1] 3)
      = cp_sokaka_key 7 (cp_sokaka_gen_pub 7 [1]) (cp_sokaka_gen_prv 7 [2] 3) :=
  claim_C3 7 3 [1] [2] (by decide)

/-- C7: SOK public-key derivation is a deterministic function of the
identity alone: with the ambient randomness stream threaded through
explicitly, the result is independent of the stream and the stream is
returned untouched (so no prior call can influence it). -/
theorem claim_C7 (q : ℕ) (rng₁ rng₂ ident : List ℕ) :
    (cp_sokaka_gen_pub_st q rng₁ ident).1 = (cp_sokaka_gen_pub_st q rng₂ ident).1 ∧
      (cp_sokaka_gen_pub_st q rng₁ ident).2 = rng₁ :=
  ⟨rfl, rfl⟩

/-- C9: when the bounded randomness stream offers no valid sample, each
generation operation (RSA key generation, ECDSA key generation and nonce
sampling, SOK master-key generation) surfaces a hard failure to its caller
instead of returning silently or looping. -/
theorem claim_C9 (randPQ : List (ℕ × ℕ)) (randK : List ℕ)
    (e bits q d : ℕ) (msg : List ℕ)
    (h1 : ∀ pq ∈ randPQ, rsa_pair_ok bits e pq.1 pq.2 = false)
    (h2 : ∀ k ∈ randK, ¬(0 < k ∧ k < q)) :
    cp_rsa_gen_basic randPQ e bits = .error () ∧
      cp_ecdsa_gen q randK = .error () ∧
      cp_ecdsa_sign_rand q msg d randK = .error () ∧
      cp_sokaka_gen q randK = .error () := by
  have hfind1 : randPQ.find? (fun pq => rsa_pair_ok bits e pq.1 pq.2) = none :=
    List.find?_eq_none.mpr (fun x hx => by simp [h1 x hx])
  have hfind2 : randK.find? (fun k => decide (0 < k) && decide (k < q)) = none :=
    List.find?_eq_none.mpr (fun k hk => by simpa using h2 k hk)
  have hfind3 : randK.findSome?
      (fun k => if 0 < k ∧ k < q then cp_ecdsa_sign_basic q msg d k else none)
        = none :=
    List.findSome?_eq_none_iff.mpr (fun k hk => by rw [if_neg (h2 k hk)])
  refine ⟨?_, ?_, ?_, ?_⟩
  · simp only [cp_rsa_gen_basic, hfind1]
  · simp only [cp_ecdsa_gen, hfind2]
  · simp only [cp_ecdsa_sign_rand, hfind3]
  · simp only [cp_sokaka_gen, hfind2]

/-- Witness for C9: a stream offering only the non-prime pair (4,6), and a
scalar stream offering only 0, drive all four generators to the hard
failure. -/
theorem claim_C9_witness :
    cp_rsa_gen_basic [(4, 6)] 5 6 = .error () ∧
      cp_ecdsa_gen 5 [0] = .error () ∧
      cp_ecdsa_sign_rand 5 [1] 1 [0] = .error () ∧
      cp_sokaka_gen 5 [0] = .error () :=
  claim_C9 [(4, 6)] [0] 5 6 5 1 [1] (by decide) (by decide)

end Relic
